import Mathlib

/-!
Verification of the client-side data cache and state-synchronization layer
of the event-ticketing storefront: persistence reconciliation, query cache
request coalescing, optimistic mutation rollback, tag invalidation, cache-key
canonicalization, error normalization, and the startup checks in the
application shell.
-/

set_option maxHeartbeats 1000000

/-- JSON-compatible structured values: slice state, request/response bodies
and cache payloads are all values of this shape. -/
inductive JVal where
  | vnull : JVal
  | vbool : Bool → JVal
  | vnum : Int → JVal
  | vstr : String → JVal
  | varr : List JVal → JVal
  | vobj : List (String × JVal) → JVal

/-- First-match lookup in an association list keyed by strings (the order of
entries is the JS property insertion order). -/
def alookup {α : Type} : List (String × α) → String → Option α
  | [], _ => none
  | (k, v) :: rest, q => if k = q then some v else alookup rest q

/-- Keys of an association list. -/
def akeys {α : Type} (l : List (String × α)) : List String :=
  l.map Prod.fst

/-- Whether a value is a plain object (the only shape that shallow-merges
during reconciliation; arrays and primitives are taken wholesale). -/
def JVal.isObj : JVal → Bool
  | .vobj _ => true
  | _ => false

/-- Modelled from the spec: the inner shallow merge used by the Persistence
Reconciler (redux-persist autoMergeLevel2's second level; the library itself
is not part of this repository) — persisted keys win, default keys absent
from the persisted object are kept. -/
def shallowMerge (d i : List (String × JVal)) : List (String × JVal) :=
  (d.map fun p => (p.1, match alookup i p.1 with
    | some w => w
    | none => p.2)) ++ i.filter fun p => (alookup d p.1).isNone

/-- Modelled from the spec: the state reconciler selected by persistConfig
(autoMergeLevel2; the library itself is not part of this repository): each
top-level slice present in the persisted payload overrides the default, with
object values merged one level deep and arrays/primitives taken wholesale
from the persisted payload; top-level slices absent from the payload keep
their default. -/
def mergeLevel2 (d i : List (String × JVal)) : List (String × JVal) :=
  (d.map fun p => (p.1, match alookup i p.1 with
    | some iv =>
      match p.2, iv with
      | .vobj dfs, .vobj ifs => .vobj (shallowMerge dfs ifs)
      | _, _ => iv
    | none => p.2)) ++ i.filter fun p => (alookup d p.1).isNone

theorem alookup_map_val {α β : Type} (f : String → α → β) :
    ∀ (l : List (String × α)) (q : String),
      alookup (l.map fun p => (p.1, f p.1 p.2)) q = (alookup l q).map (f q)
  | [], _ => rfl
  | (k, v) :: rest, q => by
    by_cases h : k = q
    · subst h; simp [alookup]
    · simp [alookup, h, alookup_map_val f rest q]

theorem alookup_append {α : Type} (l₁ l₂ : List (String × α)) (q : String) :
    alookup (l₁ ++ l₂) q =
      match alookup l₁ q with
      | some v => some v
      | none => alookup l₂ q := by
  induction l₁ with
  | nil => simp [alookup]
  | cons p rest ih =>
    obtain ⟨pk, pv⟩ := p
    by_cases h : pk = q
    · simp [alookup, h]
    · simp [alookup, h, ih]

theorem alookup_filter_true {α : Type} (pred : String → Bool)
    (l : List (String × α)) (q : String) (hq : pred q = true) :
    alookup (l.filter fun p => pred p.1) q = alookup l q := by
  induction l with
  | nil => rfl
  | cons p rest ih =>
    obtain ⟨pk, pv⟩ := p
    by_cases h : pk = q
    · subst h
      simp [List.filter_cons, hq, alookup]
    · cases hp : pred pk
      · simp [List.filter_cons, hp, alookup, h, ih]
      · simp [List.filter_cons, hp, alookup, h, ih]

theorem alookup_filter_false {α : Type} (pred : String → Bool)
    (l : List (String × α)) (q : String) (hq : pred q = false) :
    alookup (l.filter fun p => pred p.1) q = none := by
  induction l with
  | nil => rfl
  | cons p rest ih =>
    obtain ⟨pk, pv⟩ := p
    by_cases h : pk = q
    · subst h
      simp [List.filter_cons, hq, ih]
    · cases hp : pred pk <;> simp [List.filter_cons, hp, alookup, h, ih]

/-- Value of the reconciled state at top-level key `k`, as the spec describes
it: persisted entries override defaults, objects merge one level deep. -/
theorem mergeLevel2_lookup (d i : List (String × JVal)) (k : String) :
    (alookup i k = none → alookup (mergeLevel2 d i) k = alookup d k) ∧
    (∀ dv iv, alookup d k = some dv → alookup i k = some iv →
      (dv.isObj = false ∨ iv.isObj = false) →
      alookup (mergeLevel2 d i) k = some iv) ∧
    (∀ dfs ifs, alookup d k = some (.vobj dfs) → alookup i k = some (.vobj ifs) →
      alookup (mergeLevel2 d i) k = some (.vobj (shallowMerge dfs ifs))) := by
  have hmap := alookup_map_val
    (fun k2 dv => match alookup i k2 with
      | some iv =>
        match dv, iv with
        | .vobj dfs, .vobj ifs => JVal.vobj (shallowMerge dfs ifs)
        | _, _ => iv
      | none => dv) d k
  refine ⟨?_, ?_, ?_⟩
  · intro hnone
    rw [mergeLevel2, alookup_append, hmap]
    cases hd : alookup d k with
    | none =>
      simp only [Option.map_none']
      rw [alookup_filter_true (fun s => (alookup d s).isNone) i k (by simp [hd]),
        hnone]
    | some dv =>
      simp [hnone]
  · intro dv iv hd hi hshape
    rw [mergeLevel2, alookup_append, hmap, hd]
    cases dv <;> cases iv <;> simp_all [JVal.isObj, hi]
  · intro dfs ifs hd hi
    rw [mergeLevel2, alookup_append, hmap, hd]
    simp [hi]

/-- Lookup in a shallow merge: the persisted value wins whenever present,
otherwise the default value is kept. -/
theorem shallowMerge_lookup (d i : List (String × JVal)) (k : String) :
    (∀ w, alookup i k = some w → alookup (shallowMerge d i) k = some w) ∧
    (alookup i k = none → alookup (shallowMerge d i) k = alookup d k) := by
  have hmap := alookup_map_val
    (fun k2 dv => match alookup i k2 with
      | some w => w
      | none => dv) d k
  constructor
  · intro w hw
    rw [shallowMerge, alookup_append, hmap]
    cases hd : alookup d k with
    | none =>
      simp only [Option.map_none']
      rw [alookup_filter_true (fun s => (alookup d s).isNone) i k (by simp [hd]),
        hw]
    | some dv =>
      simp [hw]
  · intro hnone
    rw [shallowMerge, alookup_append, hmap]
    cases hd : alookup d k with
    | none =>
      simp only [Option.map_none']
      rw [alookup_filter_true (fun s => (alookup d s).isNone) i k (by simp [hd]),
        hnone]
    | some dv =>
      simp [hnone]

/-- C1: for every whitelisted slice state persisted to storage and every
default initial state whose key set is a superset of the persisted one,
rehydration merges per top-level slice: every top-level key present in the
persisted payload takes the persisted value (object values merged one level
deep, arrays/primitives taken wholesale), and every key absent from the
payload keeps the default; one level down, persisted keys win and default
keys absent from the persisted object are filled from the default. -/
theorem persist_rehydration_merge (d i : List (String × JVal)) (k : String) :
    (alookup i k = none → alookup (mergeLevel2 d i) k = alookup d k) ∧
    (∀ dv iv, alookup d k = some dv → alookup i k = some iv →
      (dv.isObj = false ∨ iv.isObj = false) →
      alookup (mergeLevel2 d i) k = some iv) ∧
    (∀ dfs ifs, alookup d k = some (.vobj dfs) → alookup i k = some (.vobj ifs) →
      ∃ mfs, alookup (mergeLevel2 d i) k = some (.vobj mfs) ∧
        (∀ k2 w, alookup ifs k2 = some w → alookup mfs k2 = some w) ∧
        (∀ k2, alookup ifs k2 = none → alookup mfs k2 = alookup dfs k2)) := by
  obtain ⟨h1, h2, h3⟩ := mergeLevel2_lookup d i k
  refine ⟨h1, h2, ?_⟩
  intro dfs ifs hd hi
  refine ⟨shallowMerge dfs ifs, h3 dfs ifs hd hi, ?_, ?_⟩
  · intro k2 w hw
    exact (shallowMerge_lookup dfs ifs k2).1 w hw
  · intro k2 hk2
    exact (shallowMerge_lookup dfs ifs k2).2 hk2

/-- Witness for C1: the spec scenario — persisted payload
cities = (selected: "sf"), default cities = (selected: null, list: []);
the reconciled cities slice has selected = "sf" and list = []. -/
theorem persist_rehydration_merge_witness :
    ∃ mfs,
      alookup
        (mergeLevel2
          [("cities", .vobj [("selected", .vnull), ("list", .varr [])])]
          [("cities", .vobj [("selected", .vstr "sf")])]) "cities" =
        some (.vobj mfs) ∧
      alookup mfs "selected" = some (.vstr "sf") ∧
      alookup mfs "list" = some (.varr []) := by
  obtain ⟨mfs, hm, hwin, hfill⟩ :=
    (persist_rehydration_merge
      [("cities", .vobj [("selected", .vnull), ("list", .varr [])])]
      [("cities", .vobj [("selected", .vstr "sf")])] "cities").2.2
      [("selected", .vnull), ("list", .varr [])]
      [("selected", .vstr "sf")] rfl rfl
  exact ⟨mfs, hm, hwin "selected" (.vstr "sf") rfl, (hfill "list" rfl).trans rfl⟩

/-- Fetch status of a query cache entry. -/
inductive QStatus where
  | pending : QStatus
  | fulfilled : JVal → QStatus
  | rejected : String → QStatus

/-- Modelled from the spec: a cache entry of the Query Cache Entry Store
(the store lives inside the RTK Query library, which is not part of this
repository), restricted to the fields the coalescing rule concerns. -/
structure QEntry where
  status : QStatus
  subscriberCount : Nat

/-- Modelled from the spec: the Query Cache Entry Store keyed by CacheKey,
together with the ordered log of fetches it has issued. -/
structure QCache where
  entries : List (String × QEntry)
  fetchLog : List String

/-- Replace (or insert) the entry stored under key `k`. -/
def setEntry {α : Type} (l : List (String × α)) (k : String) (v : α) :
    List (String × α) :=
  (k, v) :: l.filter fun p => p.1 != k

theorem alookup_setEntry_self {α : Type} (l : List (String × α)) (k : String)
    (v : α) : alookup (setEntry l k v) k = some v := by
  simp [setEntry, alookup]

theorem alookup_setEntry_ne {α : Type} (l : List (String × α)) (k q : String)
    (v : α) (h : q ≠ k) : alookup (setEntry l k v) q = alookup l q := by
  have hne : k ≠ q := fun he => h he.symm
  simp only [setEntry, alookup, if_neg hne]
  exact alookup_filter_true (fun s => s != k) l q (by simp [h])

/-- Modelled from the spec: `request` on the Query Cache Entry Store for an
already-derived CacheKey. A Pending or Fulfilled entry gains a subscriber and
no new fetch is issued (coalescing / cache hit); a missing or Rejected entry
transitions to Pending, gains a subscriber, and a fetch is issued and
appended to the fetch log. -/
def request (c : QCache) (k : String) : QCache :=
  match alookup c.entries k with
  | some e =>
    match e.status with
    | .pending =>
      { c with entries := setEntry c.entries k ⟨.pending, e.subscriberCount + 1⟩ }
    | .fulfilled v =>
      { c with entries := setEntry c.entries k ⟨.fulfilled v, e.subscriberCount + 1⟩ }
    | .rejected _ =>
      { entries := setEntry c.entries k ⟨.pending, e.subscriberCount + 1⟩,
        fetchLog := c.fetchLog ++ [k] }
  | none =>
    { entries := setEntry c.entries k ⟨.pending, 1⟩,
      fetchLog := c.fetchLog ++ [k] }

/-- Modelled from the spec: completion of the single in-flight fetch for key
`k`, storing the fetched value in the shared entry every subscriber reads. -/
def resolve (c : QCache) (k : String) (v : JVal) : QCache :=
  match alookup c.entries k with
  | some e =>
    { c with entries := setEntry c.entries k ⟨.fulfilled v, e.subscriberCount⟩ }
  | none => c

/-- Iterate `request` for the same key `n` times within one turn. -/
def requestN : Nat → QCache → String → QCache
  | 0, c, _ => c
  | n + 1, c, k => requestN n (request c k) k

theorem requestN_pending (n : Nat) :
    ∀ (c : QCache) (k : String) (m : Nat),
      alookup c.entries k = some ⟨.pending, m⟩ →
      alookup (requestN n c k).entries k = some ⟨.pending, m + n⟩ ∧
        (requestN n c k).fetchLog = c.fetchLog := by
  induction n with
  | zero => intro c k m h; exact ⟨by simpa [requestN] using h, rfl⟩
  | succ n ih =>
    intro c k m h
    have hreq : request c k =
        { c with entries := setEntry c.entries k ⟨.pending, m + 1⟩ } := by
      simp [request, h]
    have hlk : alookup (request c k).entries k = some ⟨.pending, m + 1⟩ := by
      rw [hreq]; exact alookup_setEntry_self _ _ _
    obtain ⟨h1, h2⟩ := ih (request c k) k (m + 1) hlk
    constructor
    · rw [show requestN (n + 1) c k = requestN n (request c k) k from rfl, h1]
      simp [Nat.add_assoc, Nat.add_comm 1 n]
    · rw [show requestN (n + 1) c k = requestN n (request c k) k from rfl, h2,
        hreq]

/-- C2: request coalescing — starting with no entry for a CacheKey, any
number n ≥ 1 of `request` calls for the same key issued before the fetch
resolves put exactly one fetch in the log; all n callers are attached as
subscribers of the single Pending entry, and after resolution they all read
the same fulfilled value from that shared entry. -/
theorem request_coalescing (c0 : QCache) (k : String) (n : Nat)
    (hnone : alookup c0.entries k = none) (hn : 1 ≤ n) :
    (requestN n c0 k).fetchLog = c0.fetchLog ++ [k] ∧
    alookup (requestN n c0 k).entries k = some ⟨.pending, n⟩ ∧
    ∀ v, alookup (resolve (requestN n c0 k) k v).entries k =
      some ⟨.fulfilled v, n⟩ := by
  obtain ⟨m, rfl⟩ : ∃ m, n = m + 1 :=
    ⟨n - 1, (Nat.succ_pred_eq_of_pos hn).symm⟩
  have hreq : request c0 k =
      { entries := setEntry c0.entries k ⟨.pending, 1⟩,
        fetchLog := c0.fetchLog ++ [k] } := by
    simp [request, hnone]
  have hlk : alookup (request c0 k).entries k = some ⟨.pending, 1⟩ := by
    rw [hreq]; exact alookup_setEntry_self _ _ _
  obtain ⟨h1, h2⟩ := requestN_pending m (request c0 k) k 1 hlk
  have hiter : requestN (m + 1) c0 k = requestN m (request c0 k) k := rfl
  have hcount : alookup (requestN (m + 1) c0 k).entries k =
      some ⟨.pending, m + 1⟩ := by
    rw [hiter, h1, Nat.add_comm 1 m]
  refine ⟨by rw [hiter, h2, hreq], hcount, ?_⟩
  intro v
  simp only [resolve, hcount]
  exact alookup_setEntry_self _ _ _

/-- Witness for C2: two `request("getEvents", city sf)` calls in the same
turn record one fetch, and both subscribers read the same resolved value. -/
theorem request_coalescing_witness :
    (requestN 2 ⟨[], []⟩ "getEvents(city=sf)").fetchLog = ["getEvents(city=sf)"] ∧
    alookup (requestN 2 ⟨[], []⟩ "getEvents(city=sf)").entries
      "getEvents(city=sf)" = some ⟨.pending, 2⟩ ∧
    alookup (resolve (requestN 2 ⟨[], []⟩ "getEvents(city=sf)")
        "getEvents(city=sf)" (.vstr "eventsPayload")).entries
      "getEvents(city=sf)" = some ⟨.fulfilled (.vstr "eventsPayload"), 2⟩ := by
  obtain ⟨h1, h2, h3⟩ :=
    request_coalescing ⟨[], []⟩ "getEvents(city=sf)" 2 rfl (by decide)
  exact ⟨by simpa using h1, h2, h3 _⟩

/-- Modelled from the spec: a PendingMutation record — the snapshot captured
before the optimistic patch, the target CacheKey and the mutation id. -/
structure PendingMutation where
  id : Nat
  preSnapshot : Option JVal
  targetKey : String

/-- Modelled from the spec: the state the Mutation Executor acts on (the
executor lives inside the RTK Query library, which is not part of this
repository): cache values by key, the in-flight PendingMutation list, and
the number of remote calls issued so far. -/
structure MutState where
  cache : List (String × JVal)
  pending : List PendingMutation
  remoteCalls : Nat

/-- Modelled from the spec: `peek(key)` returns the entry without affecting
subscriber counts or triggering a fetch. -/
def peekCache (s : MutState) (k : String) : Option JVal :=
  alookup s.cache k

/-- Restore a cache slot to a snapshot: re-insert the snapshotted value, or
remove the slot if the snapshot recorded an absent entry. -/
def restoreEntry (l : List (String × JVal)) (k : String) :
    Option JVal → List (String × JVal)
  | some v => setEntry l k v
  | none => l.filter fun p => p.1 != k

/-- Modelled from the spec: phase 1 of an optimistic mutation — capture
preSnapshot via peek, apply the patch directly into the cache entry, and
register a PendingMutation. -/
def beginOptimistic (s : MutState) (mid : Nat) (k : String)
    (patch : Option JVal → JVal) : MutState :=
  { cache := setEntry s.cache k (patch (peekCache s k)),
    pending := ⟨mid, peekCache s k, k⟩ :: s.pending,
    remoteCalls := s.remoteCalls }

/-- Modelled from the spec: rollback — restore the entry to the recorded
preSnapshot exactly and discard the PendingMutation. -/
def rollbackMutation (s : MutState) (m : PendingMutation) : MutState :=
  { cache := restoreEntry s.cache m.targetKey m.preSnapshot,
    pending := s.pending.filter fun p => p.id != m.id,
    remoteCalls := s.remoteCalls }

/-- Modelled from the spec: a complete failed optimistic mutation — apply the
optimistic patch and register the PendingMutation, issue the remote call
exactly once, receive a failure, roll back, and surface the error to the
caller; the executor performs no retry of its own. -/
def mutateFailure (s : MutState) (mid : Nat) (k : String)
    (patch : Option JVal → JVal) (err : String) : MutState × String :=
  let s1 := beginOptimistic s mid k patch
  let s2 := { s1 with remoteCalls := s1.remoteCalls + 1 }
  (rollbackMutation s2 ⟨mid, peekCache s k, k⟩, err)

/-- C3: for every mutation with an optimistic patch whose remote call fails,
the cache after rollback equals the pre-patch cache at every key (the target
entry is restored exactly to the snapshot, never partially), the registered
PendingMutation is discarded, the error is surfaced to the caller, and the
remote call is issued exactly once (no automatic retry). -/
theorem optimistic_rollback_exact (s : MutState) (mid : Nat) (k : String)
    (patch : Option JVal → JVal) (err : String)
    (hid : ∀ p ∈ s.pending, p.id ≠ mid) :
    (∀ q, alookup (mutateFailure s mid k patch err).1.cache q =
      alookup s.cache q) ∧
    (mutateFailure s mid k patch err).1.pending = s.pending ∧
    (mutateFailure s mid k patch err).2 = err ∧
    (mutateFailure s mid k patch err).1.remoteCalls = s.remoteCalls + 1 := by
  refine ⟨?_, ?_, rfl, rfl⟩
  · intro q
    show alookup (restoreEntry (setEntry s.cache k (patch (peekCache s k))) k
      (peekCache s k)) q = alookup s.cache q
    cases hpre : peekCache s k with
    | some v =>
      by_cases hq : q = k
      · rw [hq]
        simp only [restoreEntry]
        rw [alookup_setEntry_self]
        exact hpre.symm
      · simp only [restoreEntry]
        rw [alookup_setEntry_ne _ _ _ _ hq, alookup_setEntry_ne _ _ _ _ hq]
    | none =>
      by_cases hq : q = k
      · rw [hq]
        simp only [restoreEntry]
        rw [alookup_filter_false (fun t => t != k)
            (setEntry s.cache k (patch none)) k (by simp)]
        exact hpre.symm
      · simp only [restoreEntry]
        rw [alookup_filter_true (fun t => t != k)
            (setEntry s.cache k (patch none)) q (by simp [hq]),
          alookup_setEntry_ne _ _ _ _ hq]
  · show ((⟨mid, peekCache s k, k⟩ : PendingMutation) :: s.pending).filter
      (fun p => p.id != mid) = s.pending
    rw [List.filter_cons]
    simp only [bne_self_eq_false, if_false]
    exact List.filter_eq_self.mpr fun p hp => by
      simpa using hid p hp

/-- Witness for C3: the spec scenario — a cached list of three events, an
optimistic patch appending event X, a failed remote call; afterwards the
list is exactly the original three events, X absent, the pending list is
empty again, the error is surfaced, and one remote call was made. -/
theorem optimistic_rollback_exact_witness :
    alookup (mutateFailure
        ⟨[("getEvents", .varr [.vstr "a", .vstr "b", .vstr "c"])], [], 0⟩
        7 "getEvents"
        (fun pre => match pre with
          | some (.varr xs) => .varr (xs ++ [.vstr "X"])
          | _ => .varr [.vstr "X"])
        "remote failed").1.cache "getEvents" =
      some (.varr [.vstr "a", .vstr "b", .vstr "c"]) ∧
    (mutateFailure
        ⟨[("getEvents", .varr [.vstr "a", .vstr "b", .vstr "c"])], [], 0⟩
        7 "getEvents"
        (fun pre => match pre with
          | some (.varr xs) => .varr (xs ++ [.vstr "X"])
          | _ => .varr [.vstr "X"])
        "remote failed").1.pending = [] ∧
    (mutateFailure
        ⟨[("getEvents", .varr [.vstr "a", .vstr "b", .vstr "c"])], [], 0⟩
        7 "getEvents"
        (fun pre => match pre with
          | some (.varr xs) => .varr (xs ++ [.vstr "X"])
          | _ => .varr [.vstr "X"])
        "remote failed").2 = "remote failed" ∧
    (mutateFailure
        ⟨[("getEvents", .varr [.vstr "a", .vstr "b", .vstr "c"])], [], 0⟩
        7 "getEvents"
        (fun pre => match pre with
          | some (.varr xs) => .varr (xs ++ [.vstr "X"])
          | _ => .varr [.vstr "X"])
        "remote failed").1.remoteCalls = 0 + 1 := by
  obtain ⟨h1, h2, h3, h4⟩ := optimistic_rollback_exact
    ⟨[("getEvents", .varr [.vstr "a", .vstr "b", .vstr "c"])], [], 0⟩
    7 "getEvents"
    (fun pre => match pre with
      | some (.varr xs) => .varr (xs ++ [.vstr "X"])
      | _ => .varr [.vstr "X"])
    "remote failed"
    (fun p hp => absurd hp (List.not_mem_nil p))
  exact ⟨(h1 "getEvents").trans rfl, h2, h3, h4⟩

/-- The persistConfig whitelist from the store configuration: only the
cities and events domain slices are persisted. -/
def persistWhitelist : List String := ["cities", "events"]

/-- The RTK Query reducer path blacklisted from persistence in persistConfig;
under it live the Query Cache Entry Store, the Tag Invalidation Graph state
and the in-flight mutation records. -/
def apiReducerPath : String := "api"

/-- Modelled from the spec: the payload produced by the Persistence
Reconciler (persistReducer is library code, not part of this repository):
exactly the whitelisted top-level slices of the root state are written. -/
def persistedPayload (rootState : List (String × JVal)) :
    List (String × JVal) :=
  rootState.filter fun p => persistWhitelist.contains p.1

/-- C4: the persisted payload only ever contains the whitelisted domain
slices (cities, events); the RTK Query slice — holding the Query Cache Entry
Store, the Tag Invalidation Graph state and the in-flight PendingMutation
list — is never written to storage, and on reload rehydration leaves that
slice at its fresh default, to be rebuilt from the network. -/
theorem persist_whitelist_only (st : List (String × JVal)) :
    (∀ k v, (k, v) ∈ persistedPayload st → k = "cities" ∨ k = "events") ∧
    alookup (persistedPayload st) apiReducerPath = none ∧
    (∀ dflt, alookup (mergeLevel2 dflt (persistedPayload st)) apiReducerPath =
      alookup dflt apiReducerPath) := by
  have hapi : ∀ st2 : List (String × JVal),
      alookup (persistedPayload st2) apiReducerPath = none := by
    intro st2
    exact alookup_filter_false (fun t => persistWhitelist.contains t) st2
      apiReducerPath (by decide)
  refine ⟨?_, hapi st, ?_⟩
  · intro k v hm
    have hc := (List.mem_filter.mp hm).2
    have hk : k ∈ persistWhitelist := by simpa using hc
    simpa [persistWhitelist] using hk
  · intro dflt
    exact (mergeLevel2_lookup dflt (persistedPayload st) apiReducerPath).1
      (hapi st)

/-- Witness for C4: a concrete root state with cities, events and api
slices — the cities entry survives into the payload under a whitelisted
name, and the api slice is not written. -/
theorem persist_whitelist_only_witness :
    ("cities" = "cities" ∨ "cities" = "events") ∧
    alookup (persistedPayload
      [("cities", .vnull), ("events", .vnull), ("api", .vnull)])
      apiReducerPath = none := by
  obtain ⟨h1, h2, h3⟩ := persist_whitelist_only
    [("cities", .vnull), ("events", .vnull), ("api", .vnull)]
  refine ⟨h1 "cities" .vnull ?_, h2⟩
  have hpp : persistedPayload
      [("cities", .vnull), ("events", .vnull), ("api", .vnull)] =
      [("cities", .vnull), ("events", .vnull)] := rfl
  rw [hpp]
  exact List.mem_cons_self _ _

mutual
/-- Modelled from the spec: deterministic JSON-style serialization of a
structured value, used for persisted slice payloads. -/
def serialize : JVal → String
  | .vnull => "null"
  | .vbool true => "true"
  | .vbool false => "false"
  | .vnum n => toString n
  | .vstr s => "\"" ++ s ++ "\""
  | .varr xs => "[" ++ serializeList xs ++ "]"
  | .vobj fs => "\x7b" ++ serializeFields fs ++ "\x7d"

/-- Serialization of the elements of an array value. -/
def serializeList : List JVal → String
  | [] => ""
  | [x] => serialize x
  | x :: xs => serialize x ++ "," ++ serializeList xs

/-- Serialization of the fields of an object value. -/
def serializeFields : List (String × JVal) → String
  | [] => ""
  | [(k, v)] => "\"" ++ k ++ "\":" ++ serialize v
  | (k, v) :: fs => "\"" ++ k ++ "\":" ++ serialize v ++ "," ++ serializeFields fs
end

/-- Modelled from the spec: a completed persistence write — the composite
storage key, the state version of the slice it serialized, and the payload. -/
structure WriteRec where
  key : String
  version : Nat
  payload : String

/-- Composite storage key: the persistConfig root key plus the slice name. -/
def compositeKey (root slice : String) : String :=
  root ++ ":" ++ slice

/-- Number of writes already recorded for a storage key. -/
def countKey (log : List WriteRec) (k : String) : Nat :=
  (log.filter fun w => w.key == k).length

/-- Modelled from the spec: handling one state-change notification of the
Persistence Reconciler (the persistence engine is library code, not part of
this repository): a whitelisted slice is serialized and a write is enqueued
under the composite key with the next state version for that key; writes
are processed by a single writer per key in enqueue order, so the log order
is the completion order. -/
def notifyWrite (root : String) (log : List WriteRec) (slice : String)
    (value : JVal) : List WriteRec :=
  if persistWhitelist.contains slice then
    log ++ [⟨compositeKey root slice,
      countKey log (compositeKey root slice), serialize value⟩]
  else log

/-- Process a sequence of state-change notifications in order. -/
def runNotifications (root : String) (log : List WriteRec) :
    List (String × JVal) → List WriteRec
  | [] => log
  | n :: ns => runNotifications root (notifyWrite root log n.1 n.2) ns

/-- Versions of the completed writes on key `k`, in completion order. -/
def versionsFor (log : List WriteRec) (k : String) : List Nat :=
  (log.filter fun w => w.key == k).map WriteRec.version

theorem versionsFor_append_hit (log : List WriteRec) (k : String)
    (p : WriteRec) (hp : p.key = k) :
    versionsFor (log ++ [p]) k = versionsFor log k ++ [p.version] := by
  simp [versionsFor, List.filter_append, List.filter_cons, hp]

theorem countKey_append_hit (log : List WriteRec) (k : String)
    (p : WriteRec) (hp : p.key = k) :
    countKey (log ++ [p]) k = countKey log k + 1 := by
  simp [countKey, List.filter_append, List.filter_cons, hp]

theorem versionsFor_append_miss (log : List WriteRec) (k : String)
    (p : WriteRec) (hp : ¬p.key = k) :
    versionsFor (log ++ [p]) k = versionsFor log k := by
  simp [versionsFor, List.filter_append, List.filter_cons, hp]

theorem countKey_append_miss (log : List WriteRec) (k : String)
    (p : WriteRec) (hp : ¬p.key = k) :
    countKey (log ++ [p]) k = countKey log k := by
  simp [countKey, List.filter_append, List.filter_cons, hp]

theorem versionsFor_notifyWrite (root : String) (log : List WriteRec)
    (slice : String) (value : JVal) (k : String)
    (hinv : versionsFor log k = List.range (countKey log k)) :
    versionsFor (notifyWrite root log slice value) k =
      List.range (countKey (notifyWrite root log slice value) k) := by
  rw [notifyWrite]
  by_cases hw : persistWhitelist.contains slice = true
  · rw [if_pos hw]
    by_cases hk : compositeKey root slice = k
    · rw [versionsFor_append_hit log k _ hk, countKey_append_hit log k _ hk,
        hinv]
      show List.range (countKey log k) ++ [countKey log (compositeKey root slice)] =
        List.range (countKey log k + 1)
      rw [hk]
      exact (List.range_succ _).symm
    · rw [versionsFor_append_miss log k _ hk, countKey_append_miss log k _ hk]
      exact hinv
  · rw [if_neg hw]
    exact hinv

theorem versionsFor_runNotifications (root : String)
    (ns : List (String × JVal)) :
    ∀ (log : List WriteRec),
      (∀ k, versionsFor log k = List.range (countKey log k)) →
      ∀ k, versionsFor (runNotifications root log ns) k =
        List.range (countKey (runNotifications root log ns) k) := by
  induction ns with
  | nil => intro log hinv k; exact hinv k
  | cons n ns ih =>
    intro log hinv k
    exact ih (notifyWrite root log n.1 n.2)
      (fun k2 => versionsFor_notifyWrite root log n.1 n.2 k2 (hinv k2)) k

theorem mem_runNotifications (root : String) (ns : List (String × JVal)) :
    ∀ (log : List WriteRec) (w : WriteRec),
      w ∈ runNotifications root log ns →
      w ∈ log ∨ ∃ s v, (s, v) ∈ ns ∧ persistWhitelist.contains s = true ∧
        w.key = compositeKey root s ∧ w.payload = serialize v := by
  induction ns with
  | nil => intro log w hw; exact Or.inl hw
  | cons n ns ih =>
    intro log w hw
    rcases ih (notifyWrite root log n.1 n.2) w hw with hmem | ⟨s, v, hin, hrest⟩
    · rw [notifyWrite] at hmem
      by_cases hwl : persistWhitelist.contains n.1 = true
      · rw [if_pos hwl] at hmem
        rcases List.mem_append.mp hmem with hold | hnew
        · exact Or.inl hold
        · refine Or.inr ⟨n.1, n.2, List.mem_cons_self _ _, hwl, ?_, ?_⟩
          · rw [List.mem_singleton.mp hnew]
          · rw [List.mem_singleton.mp hnew]
      · rw [if_neg hwl] at hmem
        exact Or.inl hmem
    · exact Or.inr ⟨s, v, List.mem_cons_of_mem _ hin, hrest⟩

theorem mem_runNotifications_of_mem (root : String)
    (ns : List (String × JVal)) :
    ∀ (log : List WriteRec) (w : WriteRec), w ∈ log →
      w ∈ runNotifications root log ns := by
  induction ns with
  | nil => intro log w hw; exact hw
  | cons n ns ih =>
    intro log w hw
    refine ih (notifyWrite root log n.1 n.2) w ?_
    rw [notifyWrite]
    by_cases hwl : persistWhitelist.contains n.1 = true
    · rw [if_pos hwl]
      exact List.mem_append_left _ hw
    · rw [if_neg hwl]
      exact hw

theorem notification_write_mem (root : String) :
    ∀ (pre : List (String × JVal)) (s : String) (v : JVal)
      (post : List (String × JVal)) (log : List WriteRec),
      persistWhitelist.contains s = true →
      (⟨compositeKey root s,
        countKey (runNotifications root log pre) (compositeKey root s),
        serialize v⟩ : WriteRec) ∈
        runNotifications root log (pre ++ (s, v) :: post) := by
  intro pre
  induction pre with
  | nil =>
    intro s v post log hwl
    show (⟨compositeKey root s, countKey log (compositeKey root s),
      serialize v⟩ : WriteRec) ∈
      runNotifications root (notifyWrite root log s v) post
    refine mem_runNotifications_of_mem root post _ _ ?_
    rw [notifyWrite, if_pos hwl]
    exact List.mem_append_right _ (List.mem_singleton.mpr rfl)
  | cons n pre ih =>
    intro s v post log hwl
    exact ih s v post (notifyWrite root log n.1 n.2) hwl

/-- C5: for every sequence of state-change notifications, each notification
from a whitelisted slice produces a completed write of the serialized slice
value under the composite key (root key + slice name) carrying the next
state version for that key; conversely every completed write stems from such
a notification; and on each storage key the completed versions are exactly
0, 1, 2, … in completion order — so the write for state version N+1 never
completes before the write for version N of the same key. -/
theorem persist_write_ordering (root : String) (ns : List (String × JVal)) :
    (∀ pre s v post, ns = pre ++ (s, v) :: post →
      persistWhitelist.contains s = true →
      (⟨compositeKey root s,
        countKey (runNotifications root [] pre) (compositeKey root s),
        serialize v⟩ : WriteRec) ∈ runNotifications root [] ns) ∧
    (∀ w, w ∈ runNotifications root [] ns →
      ∃ s v, (s, v) ∈ ns ∧ persistWhitelist.contains s = true ∧
        w.key = compositeKey root s ∧ w.payload = serialize v) ∧
    (∀ k, versionsFor (runNotifications root [] ns) k =
      List.range (countKey (runNotifications root [] ns) k)) ∧
    (∀ k, (versionsFor (runNotifications root [] ns) k).Pairwise (· < ·)) := by
  have hvers := versionsFor_runNotifications root ns []
    (fun k => rfl)
  refine ⟨?_, ?_, hvers, ?_⟩
  · intro pre s v post hsplit hwl
    rw [hsplit]
    exact notification_write_mem root pre s v post [] hwl
  · intro w hw
    rcases mem_runNotifications root ns [] w hw with hmem | hfound
    · exact absurd hmem (List.not_mem_nil w)
    · exact hfound
  · intro k
    rw [hvers k]
    exact List.pairwise_lt_range _

/-- Witness for C5: two notifications from the cities slice and one from the
blacklisted api slice — the second cities notification produces the write of
its serialized value under the composite key root:cities at version 1, the
first completed write stems from a whitelisted notification, and the
versions completed on root:cities are exactly 0 then 1, in that order. -/
theorem persist_write_ordering_witness :
    (⟨compositeKey "root" "cities",
      countKey (runNotifications "root" []
          [("cities", JVal.vnull), ("api", JVal.vbool false)])
        (compositeKey "root" "cities"),
      serialize (JVal.vbool true)⟩ : WriteRec) ∈
      runNotifications "root" []
        [("cities", JVal.vnull), ("api", JVal.vbool false),
          ("cities", JVal.vbool true)] ∧
    (∃ s v, (s, v) ∈
        [("cities", JVal.vnull), ("api", JVal.vbool false),
          ("cities", JVal.vbool true)] ∧
      persistWhitelist.contains s = true ∧
      (⟨"root:cities", 0, "null"⟩ : WriteRec).key = compositeKey "root" s ∧
      (⟨"root:cities", 0, "null"⟩ : WriteRec).payload = serialize v) ∧
    versionsFor (runNotifications "root" []
      [("cities", JVal.vnull), ("api", JVal.vbool false),
        ("cities", JVal.vbool true)]) "root:cities" = [0, 1] := by
  obtain ⟨h0, h1, h2, _⟩ := persist_write_ordering "root"
    [("cities", JVal.vnull), ("api", JVal.vbool false),
      ("cities", JVal.vbool true)]
  refine ⟨?_, ?_, ?_⟩
  · exact h0 [("cities", JVal.vnull), ("api", JVal.vbool false)] "cities"
      (JVal.vbool true) [] rfl rfl
  · refine h1 ⟨"root:cities", 0, "null"⟩ ?_
    have hrun : runNotifications "root" []
        [("cities", JVal.vnull), ("api", JVal.vbool false),
          ("cities", JVal.vbool true)] =
        [⟨"root:cities", 0, "null"⟩, ⟨"root:cities", 1, "true"⟩] := rfl
    rw [hrun]
    exact List.mem_cons_self _ _
  · rw [h2 "root:cities"]
    rfl

/-- Modelled from the spec: a cache entry as the Tag Invalidation Graph sees
it (the graph lives inside the RTK Query library, which is not part of this
repository): its CacheKey, declared tag dependencies, staleness flag,
subscriber count and last-known-good data. -/
structure TEntry where
  key : String
  tags : List String
  stale : Bool
  subscriberCount : Nat
  data : Option JVal

/-- Whether an entry depends on at least one tag of the invalidated set. -/
def dependsOn (e : TEntry) (ts : List String) : Bool :=
  e.tags.any fun t => ts.contains t

/-- Modelled from the spec: the effect of one invalidation on one entry —
a depending entry is marked stale (its key, data, tags and subscribers are
untouched), any other entry is unaffected. -/
def invalidateEntry (ts : List String) (e : TEntry) : TEntry :=
  if dependsOn e ts then { e with stale := true } else e

/-- Modelled from the spec: `invalidate(tags)` over the whole entry store —
each entry is processed exactly once; no entry is removed. -/
def invalidateEntries (ts : List String) (es : List TEntry) : List TEntry :=
  es.map (invalidateEntry ts)

/-- Modelled from the spec: the keys for which `invalidate(tags)` issues an
immediate background refetch — the depending entries that currently have at
least one subscriber. -/
def refetchKeys (ts : List String) (es : List TEntry) : List String :=
  (es.filter fun e => dependsOn e ts && e.subscriberCount != 0).map TEntry.key

/-- C6: invalidating a tag set processes every entry exactly once and removes
none (the result has the same length, its i-th element being the i-th input
entry passed once through `invalidateEntry`); a depending entry is marked
stale with key, tags, subscribers and last-known-good data untouched; a
non-depending entry is unaffected; and a background refetch is issued for a
key exactly when some entry with that key depends on an invalidated tag and
currently has at least one subscriber. -/
theorem tag_invalidation (ts : List String) (es : List TEntry) :
    (invalidateEntries ts es).length = es.length ∧
    (∀ i : Nat, (invalidateEntries ts es)[i]? =
      (es[i]?).map (invalidateEntry ts)) ∧
    (∀ e, dependsOn e ts = true →
      invalidateEntry ts e = { e with stale := true }) ∧
    (∀ e, dependsOn e ts = false → invalidateEntry ts e = e) ∧
    (∀ k, k ∈ refetchKeys ts es ↔
      ∃ e, e ∈ es ∧ e.key = k ∧ dependsOn e ts = true ∧
        e.subscriberCount ≠ 0) := by
  refine ⟨List.length_map es _, ?_, ?_, ?_, ?_⟩
  · intro i
    exact List.getElem?_map (invalidateEntry ts) es i
  · intro e hd
    simp [invalidateEntry, hd]
  · intro e hd
    simp [invalidateEntry, hd]
  · intro k
    constructor
    · intro hk
      obtain ⟨e, hef, hek⟩ := List.mem_map.mp hk
      obtain ⟨hee, hcond⟩ := List.mem_filter.mp hef
      obtain ⟨hd, hs⟩ := Bool.and_eq_true_iff.mp hcond
      exact ⟨e, hee, hek, hd, by simpa using hs⟩
    · intro ⟨e, hee, hek, hd, hs⟩
      refine List.mem_map.mpr ⟨e, List.mem_filter.mpr ⟨hee, ?_⟩, hek⟩
      exact Bool.and_eq_true_iff.mpr ⟨hd, by simpa using hs⟩

/-- Witness for C6: the spec scenario — invalidate "EventList" over a
0-subscriber depending entry, a 2-subscriber depending entry and an
unrelated entry: both depending entries come out stale with data intact, the
unrelated entry is untouched, a refetch is issued only for the 2-subscriber
entry, and no entry is removed. -/
theorem tag_invalidation_witness :
    (invalidateEntries ["EventList"]
      [⟨"k0", ["EventList"], false, 0, some .vnull⟩,
        ⟨"k2", ["EventList"], false, 2, some .vnull⟩,
        ⟨"kx", ["City:sf"], false, 1, some .vnull⟩]).length = 3 ∧
    invalidateEntry ["EventList"]
        ⟨"k2", ["EventList"], false, 2, some .vnull⟩ =
      ⟨"k2", ["EventList"], true, 2, some .vnull⟩ ∧
    invalidateEntry ["EventList"] ⟨"kx", ["City:sf"], false, 1, some .vnull⟩ =
      ⟨"kx", ["City:sf"], false, 1, some .vnull⟩ ∧
    "k2" ∈ refetchKeys ["EventList"]
      [⟨"k0", ["EventList"], false, 0, some .vnull⟩,
        ⟨"k2", ["EventList"], false, 2, some .vnull⟩,
        ⟨"kx", ["City:sf"], false, 1, some .vnull⟩] ∧
    ¬"k0" ∈ refetchKeys ["EventList"]
      [⟨"k0", ["EventList"], false, 0, some .vnull⟩,
        ⟨"k2", ["EventList"], false, 2, some .vnull⟩,
        ⟨"kx", ["City:sf"], false, 1, some .vnull⟩] := by
  obtain ⟨hlen, hidx, hdep, hnodep, hre⟩ := tag_invalidation ["EventList"]
    [⟨"k0", ["EventList"], false, 0, some .vnull⟩,
      ⟨"k2", ["EventList"], false, 2, some .vnull⟩,
      ⟨"kx", ["City:sf"], false, 1, some .vnull⟩]
  refine ⟨hlen, hdep _ rfl, hnodep _ rfl, ?_, ?_⟩
  · exact (hre "k2").mpr
      ⟨⟨"k2", ["EventList"], false, 2, some .vnull⟩,
        List.mem_cons_of_mem _ (List.mem_cons_self _ _), rfl, rfl,
        by decide⟩
  · intro hmem
    obtain ⟨e, hee, hek, hd, hs⟩ := (hre "k0").mp hmem
    simp only [List.mem_cons, List.not_mem_nil, or_false] at hee
    rcases hee with rfl | rfl | rfl
    · exact hs rfl
    · exact absurd hek (by decide)
    · exact absurd hek (by decide)

theorem alookup_perm {α : Type} {l₁ l₂ : List (String × α)}
    (h : l₁.Perm l₂) : (akeys l₁).Nodup → ∀ q, alookup l₁ q = alookup l₂ q := by
  induction h with
  | nil => intro _ _; rfl
  | cons p h ih =>
    intro hnd q
    obtain ⟨pk, pv⟩ := p
    simp only [akeys, List.map_cons, List.nodup_cons] at hnd
    by_cases hpq : pk = q
    · simp [alookup, hpq]
    · simp only [alookup, if_neg hpq]
      exact ih hnd.2 q
  | swap x y l =>
    intro hnd q
    obtain ⟨xk, xv⟩ := x
    obtain ⟨yk, yv⟩ := y
    simp only [akeys, List.map_cons, List.nodup_cons, List.mem_cons] at hnd
    have hne : yk ≠ xk := fun he => hnd.1 (Or.inl he)
    by_cases hy : yk = q <;> by_cases hx : xk = q
    · exact absurd (hy.trans hx.symm) hne
    · simp [alookup, hy, hx]
    · simp [alookup, hy, hx]
    · simp [alookup, hy, hx]
  | trans h₁ h₂ ih₁ ih₂ =>
    intro hnd q
    have hnd2 : (akeys _).Nodup := (h₁.map Prod.fst).nodup_iff.mp hnd
    rw [ih₁ hnd q, ih₂ hnd2 q]

/-- Modelled from the spec: canonicalization of a request argument record —
the argument keys are sorted, so the derived key no longer depends on
property insertion order (the serializer of query arguments lives in the
RTK Query library, which is not part of this repository). -/
def canonicalize (args : List (String × String)) : List (String × String) :=
  (List.insertionSort (fun a b => a ≤ b) (akeys args)).map
    fun k => (k, (alookup args k).getD "")

/-- Deterministic serialization of a canonicalized argument record. -/
def serializeArgs : List (String × String) → String
  | [] => ""
  | (k, v) :: rest => k ++ "=" ++ v ++ ";" ++ serializeArgs rest

/-- Modelled from the spec: the CacheKey derived from the endpoint name and
the canonicalized argument record. -/
def cacheKey (endpoint : String) (args : List (String × String)) : String :=
  endpoint ++ "(" ++ serializeArgs (canonicalize args) ++ ")"

/-- C7: CacheKey derivation is a deterministic function of the endpoint name
and the canonicalized argument record: two argument records that hold the
same bindings in different property insertion orders yield the same
CacheKey for the same endpoint. -/
theorem cacheKey_insertion_order_invariant (endpoint : String)
    (args₁ args₂ : List (String × String)) (hperm : args₁.Perm args₂)
    (hnd : (akeys args₁).Nodup) :
    cacheKey endpoint args₁ = cacheKey endpoint args₂ := by
  have hkeys : (akeys args₁).Perm (akeys args₂) := hperm.map Prod.fst
  have hsorted : List.insertionSort (fun a b : String => a ≤ b) (akeys args₁) =
      List.insertionSort (fun a b : String => a ≤ b) (akeys args₂) := by
    have hp : (List.insertionSort (fun a b : String => a ≤ b)
        (akeys args₁)).Perm
        (List.insertionSort (fun a b : String => a ≤ b) (akeys args₂)) :=
      (List.perm_insertionSort (fun a b : String => a ≤ b)
        (akeys args₁)).trans
        (hkeys.trans (List.perm_insertionSort (fun a b : String => a ≤ b)
          (akeys args₂)).symm)
    have hs₁ : List.Sorted (fun a b : String => a ≤ b)
        (List.insertionSort (fun a b : String => a ≤ b) (akeys args₁)) :=
      List.sorted_insertionSort _ _
    have hs₂ : List.Sorted (fun a b : String => a ≤ b)
        (List.insertionSort (fun a b : String => a ≤ b) (akeys args₂)) :=
      List.sorted_insertionSort _ _
    exact List.eq_of_perm_of_sorted hp hs₁ hs₂
  have hlk : ∀ q, alookup args₁ q = alookup args₂ q := alookup_perm hperm hnd
  have hcanon : canonicalize args₁ = canonicalize args₂ := by
    rw [canonicalize, canonicalize, hsorted]
    apply List.map_congr_left
    intro k _
    rw [hlk k]
  rw [cacheKey, cacheKey, hcanon]

/-- Witness for C7: the same two query arguments in both insertion orders
produce the same CacheKey for the getEvents endpoint. -/
theorem cacheKey_insertion_order_invariant_witness :
    cacheKey "getEvents" [("city", "sf"), ("page", "2")] =
      cacheKey "getEvents" [("page", "2"), ("city", "sf")] :=
  cacheKey_insertion_order_invariant "getEvents" _ _
    (List.Perm.swap ("page", "2") ("city", "sf") [])
    (by decide)

/-- The HttpError shape declared in httpClient.interface.ts: the message is
required, the numeric status and string code are optional fields. -/
structure HttpError where
  message : String
  status : Option Nat
  code : Option String

/-- Response metadata of HttpResponse in httpClient.interface.ts: the numeric
status and the status text of a received response. -/
structure HttpRespMeta where
  status : Nat
  statusText : String

/-- Whether a numeric HTTP status denotes failure (outside the 2xx range). -/
def isFailureStatus (n : Nat) : Bool :=
  decide (n < 200 ∨ 300 ≤ n)

/-- Modelled from the spec: normalization of a failure response received
from the remote collaborator into the stored RemoteError (the normalizing
adapter is not among the repository files available here): the numeric
status is kept and the human-readable message is the status text, with a
generic message when the status text is empty. -/
def normalizeRemoteError (r : HttpRespMeta) : HttpError :=
  { message :=
      if r.statusText = "" then
        "Request failed with status " ++ toString r.status
      else r.statusText,
    status := some r.status,
    code := none }

/-- C8: every error response received from the remote collaborator is
normalized into a record carrying the numeric status-like code of the
response and a non-empty human-readable message. -/
theorem remote_error_normalized (r : HttpRespMeta)
    (hfail : isFailureStatus r.status = true) :
    (normalizeRemoteError r).status = some r.status ∧
    (normalizeRemoteError r).message ≠ "" := by
  refine ⟨rfl, ?_⟩
  show (if r.statusText = "" then
      "Request failed with status " ++ toString r.status
    else r.statusText) ≠ ""
  by_cases h : r.statusText = ""
  · rw [if_pos h]
    intro hcon
    have hlen := congrArg String.length hcon
    rw [String.length_append] at hlen
    have h27 : "Request failed with status ".length = 27 := rfl
    have h0 : ("" : String).length = 0 := rfl
    omega
  · rw [if_neg h]
    exact h

/-- Witness for C8: a 404 Not Found response normalizes to an error with
status code 404 and a non-empty message. -/
theorem remote_error_normalized_witness :
    (normalizeRemoteError ⟨404, "Not Found"⟩).status = some 404 ∧
    (normalizeRemoteError ⟨404, "Not Found"⟩).message ≠ "" :=
  remote_error_normalized ⟨404, "Not Found"⟩ (by decide)

/-- JS truthiness of an optional environment string: an absent variable and
the empty string are falsy. -/
def jsTruthy : Option String → Bool
  | none => false
  | some s => s != ""

/-- Module initialization of ClerkProvider.tsx: read
VITE_CLERK_PUBLISHABLE_KEY from the environment and throw an Error when it
is falsy, before any provider renders. -/
def clerkInit (publishableKey : Option String) : Except String Unit :=
  if jsTruthy publishableKey then Except.ok ()
  else Except.error
    "Missing Clerk Publishable Key. Please add VITE_CLERK_PUBLISHABLE_KEY to your .env file."

/-- C9: if VITE_CLERK_PUBLISHABLE_KEY is absent or empty, the ClerkProvider
module throws at load time, aborting initialization before any provider
renders; if a non-empty key is present the check raises no error. -/
theorem clerk_key_check (key : Option String) :
    ((key = none ∨ key = some "") → clerkInit key = Except.error
      "Missing Clerk Publishable Key. Please add VITE_CLERK_PUBLISHABLE_KEY to your .env file.") ∧
    (∀ s, key = some s → s ≠ "" → clerkInit key = Except.ok ()) := by
  constructor
  · rintro (rfl | rfl) <;> rfl
  · rintro s rfl hs
    simp [clerkInit, jsTruthy, hs]

/-- Witness for C9: the missing-key case throws and a concrete non-empty key
passes the check. -/
theorem clerk_key_check_witness :
    clerkInit none = Except.error
      "Missing Clerk Publishable Key. Please add VITE_CLERK_PUBLISHABLE_KEY to your .env file." ∧
    clerkInit (some "pk_test_123") = Except.ok () :=
  ⟨(clerk_key_check none).1 (Or.inl rfl),
    (clerk_key_check (some "pk_test_123")).2 "pk_test_123" rfl (by decide)⟩

/-- Model of the payment redirect interception in App.tsx: the payment,
event and session_id query parameters are read with URLSearchParams.get
(absent gives none) and tested with JS truthiness; for payment=success the
redirect URL optionally carries the session id, for payment=cancel it goes
to the cancel page, any other case leaves the redirect URL empty and an
empty redirect URL means no redirect. -/
def paymentRedirect (payment eventSlug sessionId : Option String) :
    Option String :=
  match payment, eventSlug with
  | some p, some e =>
    if p != "" && e != "" then
      let url :=
        if p = "success" then
          match sessionId with
          | some sid =>
            if sid != "" then
              "/events/" ++ e ++ "/payment-success?session_id=" ++ sid
            else "/events/" ++ e ++ "/payment-success"
          | none => "/events/" ++ e ++ "/payment-success"
        else if p = "cancel" then "/events/" ++ e ++ "/payment-cancel"
        else ""
      if url != "" then some url else none
    else none
  | _, _ => none

/-- Counterexample for C10 as stated: with payment=success, a non-empty
event and a PRESENT but EMPTY session_id parameter, the code does not append
the session_id suffix (the parameter is present, so the claim requires the
suffix); and with a present but empty event parameter and payment=success,
no redirect occurs although the claim requires one whenever both parameters
are present. -/
theorem payment_redirect_counterexample :
    paymentRedirect (some "success") (some "jazz-night") (some "") =
      some "/events/jazz-night/payment-success" ∧
    some "" ≠ (none : Option String) ∧
    paymentRedirect (some "success") (some "") (some "cs_1") = none := by
  refine ⟨rfl, ?_, rfl⟩
  intro h
  exact Option.noConfusion h

theorem append_ne_empty_of_right (x c : String) (hc : c.length ≠ 0) :
    x ++ c ≠ "" := by
  intro h
  have hl := congrArg String.length h
  rw [String.length_append] at hl
  have h0 : ("" : String).length = 0 := rfl
  omega

theorem append3_ne_empty (x c s : String) (hc : c.length ≠ 0) :
    x ++ c ++ s ≠ "" := by
  intro h
  have hl := congrArg String.length h
  rw [String.length_append, String.length_append] at hl
  have h0 : ("" : String).length = 0 := rfl
  omega

/-- C10 amended: a query parameter counts only when present with a non-empty
value; then payment=success redirects to the payment-success page, with the
session_id suffix exactly when session_id is present and non-empty,
payment=cancel redirects to the payment-cancel page, and any other payment
value — or a missing/empty payment or event parameter — yields no
redirect. -/
theorem payment_redirect_spec (p e sid : String) :
    (e ≠ "" → sid ≠ "" →
      paymentRedirect (some "success") (some e) (some sid) =
        some ("/events/" ++ e ++ "/payment-success?session_id=" ++ sid)) ∧
    (e ≠ "" →
      paymentRedirect (some "success") (some e) none =
        some ("/events/" ++ e ++ "/payment-success")) ∧
    (e ≠ "" →
      paymentRedirect (some "success") (some e) (some "") =
        some ("/events/" ++ e ++ "/payment-success")) ∧
    (e ≠ "" →
      paymentRedirect (some "cancel") (some e) (some sid) =
        some ("/events/" ++ e ++ "/payment-cancel")) ∧
    (p ≠ "success" → p ≠ "cancel" →
      paymentRedirect (some p) (some e) (some sid) = none) ∧
    paymentRedirect none (some e) (some sid) = none ∧
    paymentRedirect (some p) none (some sid) = none ∧
    paymentRedirect (some p) (some "") (some sid) = none := by
  refine ⟨?_, ?_, ?_, ?_, ?_, rfl, rfl, ?_⟩
  · intro he hsid
    simp [paymentRedirect, he, hsid]
    exact append3_ne_empty ("/events/" ++ e) "/payment-success?session_id="
      sid (by decide)
  · intro he
    simp [paymentRedirect, he]
    exact append_ne_empty_of_right ("/events/" ++ e) "/payment-success"
      (by decide)
  · intro he
    simp [paymentRedirect, he]
    exact append_ne_empty_of_right ("/events/" ++ e) "/payment-success"
      (by decide)
  · intro he
    simp [paymentRedirect, he]
    exact append_ne_empty_of_right ("/events/" ++ e) "/payment-cancel"
      (by decide)
  · intro hp1 hp2
    by_cases hp0 : p = ""
    · simp [paymentRedirect, hp0]
    · simp [paymentRedirect, hp0, hp1, hp2]
  · by_cases hp0 : p = ""
    · simp [paymentRedirect, hp0]
    · simp [paymentRedirect, hp0]

/-- Witness for C10 amended: concrete redirects for success with a session
id, for cancel, and no redirect for an unrelated payment value. -/
theorem payment_redirect_spec_witness :
    paymentRedirect (some "success") (some "jazz-night") (some "cs_1") =
      some ("/events/" ++ "jazz-night" ++ "/payment-success?session_id=" ++
        "cs_1") ∧
    paymentRedirect (some "cancel") (some "jazz-night") (some "cs_1") =
      some ("/events/" ++ "jazz-night" ++ "/payment-cancel") ∧
    paymentRedirect (some "other") (some "jazz-night") (some "cs_1") =
      none := by
  obtain ⟨h1, _, _, h4, h5, _⟩ := payment_redirect_spec "other" "jazz-night" "cs_1"
  exact ⟨h1 (by decide) (by decide), h4 (by decide), h5 (by decide) (by decide)⟩
